import Mathlib

/-!
Shallow embedding of `src/MouseWalkLinux/main_linux.py` (the MouseWalk
cursor screensaver) and proofs about its velocity-selection algorithm,
idle monitor and animation loop.

Conventions of the embedding:

* Python floats are modelled as exact rationals (`ℚ`).  The source makes a
  handful of comparisons against `prev_speed = math.hypot(prev_vx, prev_vy)`
  (an irrational square root); each such comparison is embedded by the
  arithmetically equivalent comparison of squares, recorded at the
  definition and justified by bridging lemmas against the real-valued
  formulas (`cosRejectB_iff`, `nearDiagonal_iff`).
* The pseudo-random source (`random.choice([-1.0, 1.0])` and
  `random.shuffle` of the two-element candidate list) is an explicit
  stream of bits `rng : ℕ → Bool` together with the index of the next
  unconsumed bit, threaded in exactly the order the source draws.
* All sign-level logic of `pick_diagonal_velocity` is computed by
  `pickSigns` over `ℚ`; the returned velocity is the sign pair scaled by
  the real number `comp = max 1 speed_mag / Real.sqrt 2` (line 294).
  Inside the candidate test the scale `comp` cancels from the cosine
  ratio, so `pickSigns` does not depend on `speed_mag`; lemma
  `cosRejectB_iff` proves the cancellation sound for every `speed_mag`.
-/

namespace MouseWalk

/-- Lines 296-297: `def signf(v): return 1.0 if v >= 0.0 else -1.0`. -/
def signf (v : ℚ) : ℚ := if 0 ≤ v then 1 else -1

/-- The square of line 299's `prev_speed = math.hypot(prev_vx, prev_vy)`. -/
def prevSpeedSq (pvx pvy : ℚ) : ℚ := pvx ^ 2 + pvy ^ 2

/-- Line 299's `prev_speed` itself, as a real number. -/
noncomputable def prevSpeed (pvx pvy : ℚ) : ℝ :=
  Real.sqrt ((pvx : ℝ) ^ 2 + (pvy : ℝ) ^ 2)

/-- Line 301's guard for a valid previous handedness:
`prev_speed > 1e-6 and abs(abs(prev_vx) - abs(prev_vy)) <= max(1.0, 0.05 * prev_speed)`.
Both comparisons against the irrational `prev_speed` are embedded by
squares: `prev_speed > 1e-6 ↔ prev_speed² > 1e-12`, and for the
nonnegative `d = abs(abs pvx - abs pvy)`,
`d ≤ max(1, prev_speed/20) ↔ d ≤ 1 ∨ 400·d² ≤ prev_speed²`
(`max` splits into the disjunction, and both sides of the second
disjunct are nonnegative, so comparing squares is equivalent).
Lemma `nearDiagonal_iff` proves this equivalence. -/
def nearDiagonal (pvx pvy : ℚ) : Bool :=
  decide ((1 : ℚ) / 10 ^ 12 < prevSpeedSq pvx pvy) &&
    (decide (|(|pvx| - |pvy|)| ≤ 1) ||
      decide (400 * (|pvx| - |pvy|) ^ 2 ≤ prevSpeedSq pvx pvy))

/-- Lines 300-302: `s_prev = signf(prev_vy) / signf(prev_vx)` when the
previous velocity is near-diagonal, else `None`. -/
def sPrevOpt (pvx pvy : ℚ) : Option ℚ :=
  if nearDiagonal pvx pvy then some (signf pvy / signf pvx) else none

/-- `random.choice([-1.0, 1.0])`: bit `false` picks the first list
element `-1.0`, bit `true` picks `1.0`. -/
def choicePM (b : Bool) : ℚ := if b then 1 else -1

/-- Lines 333-336's rejection test `cos_sim <= -0.2` where
`cos_sim = (prev_vx*vx + prev_vy*vy) / (prev_speed * comp)` and the
candidate is `(vx, vy) = (sx*comp, sy*comp)`.  Here `sx sy` are the
unscaled signs: `comp > 0` cancels from the ratio, leaving
`L / prev_speed ≤ -1/5` with `L = pvx*sx + pvy*sy`, which for
`prev_speed > 0` is equivalent to `L < 0 ∧ prev_speed² ≤ 25·L²`.
Lemma `cosRejectB_iff` proves this equivalence against `cos_sim`. -/
def cosRejectB (pvx pvy sx sy : ℚ) : Bool :=
  decide (pvx * sx + pvy * sy < 0) &&
    decide (prevSpeedSq pvx pvy ≤ 25 * (pvx * sx + pvy * sy) ^ 2)

/-- Line 312: `hx = 1.0 if hit_left else (-1.0 if hit_right else None)`. -/
def hxOf (hl hr : Bool) : Option ℚ :=
  if hl then some 1 else if hr then some (-1) else none

/-- Line 313: `hy = 1.0 if hit_top else (-1.0 if hit_bottom else None)`. -/
def hyOf (ht hb : Bool) : Option ℚ :=
  if ht then some 1 else if hb then some (-1) else none

/-- Lines 315-328: compute the candidate sign pair `(hx_try, hy_try)` for
handedness `s`, or `none` for the corner-mismatch `continue` of
line 327-328.  Returns the consumed-bit index after the draw of
line 316 when both axes are unconstrained. -/
def candTry (hx hy : Option ℚ) (s : ℚ) (rng : ℕ → Bool) (k : ℕ) :
    Option ((ℚ × ℚ) × ℕ) :=
  match hx, hy with
  | none, none => some ((choicePM (rng k), s * choicePM (rng k)), k + 1)
  | none, some hyv => some ((hyv / s, hyv), k)
  | some hxv, none => some ((hxv, s * hxv), k)
  | some hxv, some hyv =>
      if 1 / 10 < |hyv / hxv - s| then none else some ((hxv, hyv), k)

/-- Lines 311-338, the body of `for s in candidates`: build the candidate
for `s` and apply the anti-reversal test (lines 333-336), returning the
accepted sign pair or `none` for `continue`. -/
def tryCandidate (hl hr ht hb : Bool) (pvx pvy s : ℚ) (rng : ℕ → Bool)
    (k : ℕ) : Option (ℚ × ℚ) × ℕ :=
  match candTry (hxOf hl hr) (hyOf ht hb) s rng k with
  | none => (none, k)
  | some ((sx, sy), k') =>
      if (1 : ℚ) / 10 ^ 12 < prevSpeedSq pvx pvy ∧ cosRejectB pvx pvy sx sy = true
      then (none, k')
      else (some (sx, sy), k')

/-- The inner `for s in candidates` loop: first accepted candidate wins. -/
def tryCandList (hl hr ht hb : Bool) (pvx pvy : ℚ) (rng : ℕ → Bool) :
    List ℚ → ℕ → Option (ℚ × ℚ) × ℕ
  | [], k => (none, k)
  | s :: rest, k =>
      match tryCandidate hl hr ht hb pvx pvy s rng k with
      | (some r, k') => (some r, k')
      | (none, k') => tryCandList hl hr ht hb pvx pvy rng rest k'

/-- Lines 305-309: the candidate handedness list of one round.  With a
valid `s_prev` line 307 puts the other handedness first and `s_prev`
last (`[x for x in candidates if x != s_prev] + [s_prev]`); without one,
line 309 shuffles the two-element list, consuming one bit. -/
def roundCandidates (sp : Option ℚ) (rng : ℕ → Bool) (k : ℕ) :
    List ℚ × ℕ :=
  match sp with
  | some s => ((([1, -1] : List ℚ).filter fun x => decide (x ≠ s)) ++ [s], k)
  | none => ((if rng k then ([-1, 1] : List ℚ) else [1, -1]), k + 1)

/-- Lines 304-338: the `for _ in range(16)` bounded search. -/
def searchRounds (hl hr ht hb : Bool) (pvx pvy : ℚ) (rng : ℕ → Bool) :
    ℕ → ℕ → Option (ℚ × ℚ) × ℕ
  | 0, k => (none, k)
  | fuel + 1, k =>
      let rc := roundCandidates (sPrevOpt pvx pvy) rng k
      match tryCandList hl hr ht hb pvx pvy rng rc.1 rc.2 with
      | (some r, k') => (some r, k')
      | (none, k') => searchRounds hl hr ht hb pvx pvy rng fuel k'

/-- Lines 340-343, the fallback: force each constrained axis away from
its wall and draw the unconstrained signs from the random source; no
anti-reversal test. -/
def fallbackSigns (hl hr ht hb : Bool) (rng : ℕ → Bool) (k : ℕ) : ℚ × ℚ :=
  let hx : ℚ := if hl then 1 else if hr then -1 else choicePM (rng k)
  let k1 : ℕ := if hl || hr then k else k + 1
  let hy : ℚ := if ht then 1 else if hb then -1 else choicePM (rng k1)
  (hx, hy)

/-- The sign pair `(vx/comp, vy/comp)` returned by
`pick_diagonal_velocity` (lines 304-343): the 16-round search, else the
fallback at the index of the first bit the search did not consume. -/
def pickSigns (hl hr ht hb : Bool) (pvx pvy : ℚ) (rng : ℕ → Bool) : ℚ × ℚ :=
  match searchRounds hl hr ht hb pvx pvy rng 16 0 with
  | (some r, _) => r
  | (none, k) => fallbackSigns hl hr ht hb rng k

/-- Line 294: `comp = max(1.0, float(speed_mag)) / math.sqrt(2.0)`. -/
noncomputable def comp (speed_mag : ℚ) : ℝ := max 1 (speed_mag : ℝ) / Real.sqrt 2

/-- Lines 285-343: `pick_diagonal_velocity` — the sign pair scaled by
`comp`.  (The Python default `prev_vx = prev_vy = 0.0` is passed
explicitly here.) -/
noncomputable def pick_diagonal_velocity (speed_mag : ℚ) (hl hr ht hb : Bool)
    (pvx pvy : ℚ) (rng : ℕ → Bool) : ℝ × ℝ :=
  (((pickSigns hl hr ht hb pvx pvy rng).1 : ℝ) * comp speed_mag,
   ((pickSigns hl hr ht hb pvx pvy rng).2 : ℝ) * comp speed_mag)

/-- Line 334: `cos_sim = (prev_vx * vx + prev_vy * vy) / (prev_speed * comp)`. -/
noncomputable def cos_sim (pvx pvy speed_mag : ℚ) (v : ℝ × ℝ) : ℝ :=
  ((pvx : ℝ) * v.1 + (pvy : ℝ) * v.2) / (prevSpeed pvx pvy * comp speed_mag)

/-- Lines 281-282: `clamp`. -/
def clamp (value min_value max_value : ℚ) : ℚ :=
  max min_value (min value max_value)

/-- Lines 386-400: edge detection (strict comparisons, with
`min_x = min_y = 0` as set at lines 350-351), then — when any edge was
hit — clamp into bounds and nudge one pixel inward from each hit edge
(two sequential `if`s per axis, in source order).  The Bool reports
whether any edge was hit (which at line 403 triggers re-selection of the
velocity). -/
def resolveEdges (max_x max_y px py : ℚ) : (ℚ × ℚ) × Bool :=
  if px < 0 ∨ max_x < px ∨ py < 0 ∨ max_y < py then
    let px1 := clamp px 0 max_x
    let py1 := clamp py 0 max_y
    let px2 := if px < 0 then (0 : ℚ) + 1 else px1
    let px3 := if max_x < px then max_x - 1 else px2
    let py2 := if py < 0 then (0 : ℚ) + 1 else py1
    let py3 := if max_y < py then max_y - 1 else py2
    ((px3, py3), true)
  else ((px, py), false)

/-- Lines 383-400: one frame's position update — integrate
`pos += velocity * dt` and resolve edges. -/
def animStepPos (max_x max_y vel_x vel_y dt px py : ℚ) : (ℚ × ℚ) × Bool :=
  resolveEdges max_x max_y (px + vel_x * dt) (py + vel_y * dt)

/-- The position handed to `set_cursor_pos` at the n-th frame (line 405),
for arbitrary per-frame velocity and dt streams (the velocity value
chosen at a bounce does not matter for the bounds invariant). -/
def animPositions (max_x max_y : ℚ) (vel : ℕ → ℚ × ℚ) (dt : ℕ → ℚ)
    (p0 : ℚ × ℚ) : ℕ → ℚ × ℚ
  | 0 => p0
  | n + 1 =>
      (animStepPos max_x max_y (vel n).1 (vel n).2 (dt n)
        (animPositions max_x max_y vel dt p0 n).1
        (animPositions max_x max_y vel dt p0 n).2).1

/-- Membership in the screen rectangle `[0, max_x] × [0, max_y]`
(`max_x = width - 1`, `max_y = height - 1`, lines 352-353). -/
def inBounds (max_x max_y : ℚ) (p : ℚ × ℚ) : Prop :=
  0 ≤ p.1 ∧ p.1 ≤ max_x ∧ 0 ≤ p.2 ∧ p.2 ≤ max_y

/-- Observable events of the idle monitor and of `main`. -/
inductive MonEv where
  | quitCheck : Bool → MonEv
  | pollIdle : ℚ → MonEv
  | runAnim : MonEv
  | sleepQuarter : MonEv
  | sleepOne : MonEv
  | procQuit : MonEv
  deriving DecidableEq

/-- Line 412: `get_idle_seconds = query_idle_ms / 1000`. -/
def get_idle_seconds (ms : ℕ) : ℚ := (ms : ℚ) / 1000

/-- Lines 415-429, `monitor_idle_and_run` as an event trace: each
iteration polls the hotkey (line 420), then the idle time (line 422);
at or above the threshold it runs one animation burst and sleeps 250 ms
(lines 423-425), otherwise it sleeps 1 s (line 427).  `t` indexes the
environment streams, `fuel` bounds the unrolling; the animation burst of
line 424 is the atomic event `runAnim` (its internals are modelled by
`animLoop` below). -/
def monitorEvents (thr : ℚ) (hot : ℕ → Bool) (idleMs : ℕ → ℕ) :
    ℕ → ℕ → List MonEv
  | 0, _ => []
  | fuel + 1, t =>
      if hot t then [MonEv.quitCheck true, MonEv.procQuit]
      else
        MonEv.quitCheck false :: MonEv.pollIdle (get_idle_seconds (idleMs t)) ::
          (if thr ≤ get_idle_seconds (idleMs t) then
            MonEv.runAnim :: MonEv.sleepQuarter ::
              monitorEvents thr hot idleMs fuel (t + 1)
          else MonEv.sleepOne :: monitorEvents thr hot idleMs fuel (t + 1))

/-- Lines 446-457: `main` invokes `run_cursor_screensaver` once
unconditionally ("Start immediately", lines 452-453) and then delegates
to `monitor_idle_and_run` (line 454). -/
def mainEvents (thr : ℚ) (hot : ℕ → Bool) (idleMs : ℕ → ℕ) (fuel : ℕ) :
    List MonEv :=
  MonEv.runAnim :: monitorEvents thr hot idleMs fuel 0

/-- C6's property of a trace: every entry into the animation loop is
preceded by an idle poll that returned at least the threshold. -/
def runOnlyAfterThreshold (thr : ℚ) (evs : List MonEv) : Prop :=
  ∀ i, evs.get? i = some MonEv.runAnim →
    ∃ j, j < i ∧ ∃ q, evs.get? j = some (MonEv.pollIdle q) ∧ thr ≤ q

/-- Observable events of one animation burst (`run_cursor_screensaver`).
`restoreCursor` carries the X status code returned by the
`XUndefineCursor`/`XFlush` pair of `restore_cursor` (lines 253-256),
which the source never inspects. -/
inductive AnimEv where
  | hotkeyCheck : Bool → AnimEv
  | idleQuery : ℕ → AnimEv
  | warp : ℚ → ℚ → AnimEv
  | restoreCursor : ℤ → AnimEv
  deriving DecidableEq

/-- How the animation loop ended: `sys.exit(0)` from the hotkey
(line 371) or the `break` on detected real input (line 376). -/
inductive AnimExit where
  | procQuit
  | inputBreak
  deriving DecidableEq

/-- Environment of one animation burst: the hotkey poll results, the
idle-query results, the measured inter-frame wall-clock deltas
(line 380's `now - prev_t`), the velocity returned by
`pick_diagonal_velocity` at each bounce (line 403 — its value is
irrelevant to the loop's control flow; the function itself is embedded
separately above, and line 402's `speed_mag = max(150, hypot vel)` is an
irrational argument to it), and the status codes of the X calls made by
`restore_cursor`, which the source ignores. -/
structure AnimEnv where
  hot : ℕ → Bool
  idleMs : ℕ → ℕ
  elapsed : ℕ → ℚ
  bounceVel : ℕ → ℚ × ℚ
  xStatus : ℕ → ℤ

/-- Lines 369-406, the `while True` body, unrolled with `fuel`:
check hotkey (line 370, `sys.exit` on press), query idle and `break` if
it dropped by more than 50 ms (lines 373-377), clamp the measured delta
to `[0, 0.05]` (line 380), integrate and resolve edges, re-pick the
velocity on a hit (lines 383-403), warp the pointer (line 405).
Running out of fuel yields `none`: the loop is still running and the
`finally` of line 407 has not executed yet. -/
def animLoop (env : AnimEnv) (max_x max_y : ℚ) :
    ℕ → ℕ → ℕ → ℚ × ℚ → ℚ × ℚ → List AnimEv × Option AnimExit
  | 0, _, _, _, _ => ([], none)
  | fuel + 1, t, idle_prev, pos, vel =>
      if env.hot t then ([AnimEv.hotkeyCheck true], some AnimExit.procQuit)
      else
        if env.idleMs t + 50 < idle_prev then
          ([AnimEv.hotkeyCheck false, AnimEv.idleQuery (env.idleMs t)],
            some AnimExit.inputBreak)
        else
          let dt := max 0 (min (1 / 20) (env.elapsed t))
          let step := animStepPos max_x max_y vel.1 vel.2 dt pos.1 pos.2
          let vel' := if step.2 then env.bounceVel t else vel
          let rest := animLoop env max_x max_y fuel (t + 1) (env.idleMs t) step.1 vel'
          (AnimEv.hotkeyCheck false :: AnimEv.idleQuery (env.idleMs t) ::
            AnimEv.warp step.1.1 step.1.2 :: rest.1, rest.2)

/-- Lines 346-408: `run_cursor_screensaver`'s `try`/`finally` — whenever
the loop exits (by `break` or by the `SystemExit` of the hotkey path),
`restore_cursor` runs before the function or process exits (line 408).
Its X status code is recorded but never branches the control flow. -/
def runScreensaver (env : AnimEnv) (max_x max_y : ℚ) (fuel t idle0 : ℕ)
    (pos vel : ℚ × ℚ) : List AnimEv × Option AnimExit :=
  match animLoop env max_x max_y fuel t idle0 pos vel with
  | (tr, none) => (tr, none)
  | (tr, some e) => (tr ++ [AnimEv.restoreCursor (env.xStatus 0)], some e)

/-! ### Basic facts about the sign-level definitions -/

lemma signf_pm (v : ℚ) : signf v = 1 ∨ signf v = -1 := by
  unfold signf; split <;> simp

lemma choicePM_pm (b : Bool) : choicePM b = 1 ∨ choicePM b = -1 := by
  cases b <;> simp [choicePM]

lemma sPrevOpt_pm {pvx pvy sp : ℚ} (h : sPrevOpt pvx pvy = some sp) :
    sp = 1 ∨ sp = -1 := by
  unfold sPrevOpt at h
  split at h
  · rcases signf_pm pvy with hy | hy <;> rcases signf_pm pvx with hx | hx <;>
      simp [hx, hy] at h <;> simp [← h]
  · exact absurd h (by simp)

lemma prevSpeedSq_nonneg (pvx pvy : ℚ) : 0 ≤ prevSpeedSq pvx pvy := by
  unfold prevSpeedSq; positivity

lemma hxOf_cases (hl hr : Bool) :
    hxOf hl hr = none ∨ hxOf hl hr = some 1 ∨ hxOf hl hr = some (-1) := by
  cases hl <;> cases hr <;> simp [hxOf]

lemma hyOf_cases (ht hb : Bool) :
    hyOf ht hb = none ∨ hyOf ht hb = some 1 ∨ hyOf ht hb = some (-1) := by
  cases ht <;> cases hb <;> simp [hyOf]

/-- Every accepted candidate built from ±1 handedness and ±1 (or absent)
wall constraints has ±1 components. -/
lemma candTry_some_pm {hx hy : Option ℚ} {s a b : ℚ} {rng : ℕ → Bool} {k k' : ℕ}
    (hhx : hx = none ∨ hx = some 1 ∨ hx = some (-1))
    (hhy : hy = none ∨ hy = some 1 ∨ hy = some (-1))
    (hs : s = 1 ∨ s = -1)
    (h : candTry hx hy s rng k = some ((a, b), k')) :
    (a = 1 ∨ a = -1) ∧ (b = 1 ∨ b = -1) := by
  rcases hhx with rfl | rfl | rfl <;> rcases hhy with rfl | rfl | rfl
  · simp only [candTry, Option.some.injEq, Prod.mk.injEq] at h
    obtain ⟨⟨ha, hb⟩, -⟩ := h
    subst ha; subst hb
    rcases choicePM_pm (rng k) with hc | hc <;> rcases hs with rfl | rfl <;>
      rw [hc] <;> norm_num
  · simp only [candTry, Option.some.injEq, Prod.mk.injEq] at h
    obtain ⟨⟨ha, hb⟩, -⟩ := h
    subst ha; subst hb
    rcases hs with rfl | rfl <;> norm_num
  · simp only [candTry, Option.some.injEq, Prod.mk.injEq] at h
    obtain ⟨⟨ha, hb⟩, -⟩ := h
    subst ha; subst hb
    rcases hs with rfl | rfl <;> norm_num
  · simp only [candTry, Option.some.injEq, Prod.mk.injEq] at h
    obtain ⟨⟨ha, hb⟩, -⟩ := h
    subst ha; subst hb
    rcases hs with rfl | rfl <;> norm_num
  · simp only [candTry] at h
    split at h
    · exact absurd h (by simp)
    · simp only [Option.some.injEq, Prod.mk.injEq] at h
      obtain ⟨⟨ha, hb⟩, -⟩ := h
      subst ha; subst hb; norm_num
  · simp only [candTry] at h
    split at h
    · exact absurd h (by simp)
    · simp only [Option.some.injEq, Prod.mk.injEq] at h
      obtain ⟨⟨ha, hb⟩, -⟩ := h
      subst ha; subst hb; norm_num
  · simp only [candTry, Option.some.injEq, Prod.mk.injEq] at h
    obtain ⟨⟨ha, hb⟩, -⟩ := h
    subst ha; subst hb
    rcases hs with rfl | rfl <;> norm_num
  · simp only [candTry] at h
    split at h
    · exact absurd h (by simp)
    · simp only [Option.some.injEq, Prod.mk.injEq] at h
      obtain ⟨⟨ha, hb⟩, -⟩ := h
      subst ha; subst hb; norm_num
  · simp only [candTry] at h
    split at h
    · exact absurd h (by simp)
    · simp only [Option.some.injEq, Prod.mk.injEq] at h
      obtain ⟨⟨ha, hb⟩, -⟩ := h
      subst ha; subst hb; norm_num

/-- A wall-forced horizontal sign is returned verbatim. -/
lemma candTry_fst_forced {hy : Option ℚ} {fx s a b : ℚ} {rng : ℕ → Bool}
    {k k' : ℕ} (h : candTry (some fx) hy s rng k = some ((a, b), k')) :
    a = fx := by
  cases hy <;> simp only [candTry] at h
  · simp only [Option.some.injEq, Prod.mk.injEq] at h
    exact h.1.1.symm
  · split at h
    · exact absurd h (by simp)
    · simp only [Option.some.injEq, Prod.mk.injEq] at h
      exact h.1.1.symm

/-- A wall-forced vertical sign is returned verbatim. -/
lemma candTry_snd_forced {hx : Option ℚ} {fy s a b : ℚ} {rng : ℕ → Bool}
    {k k' : ℕ} (h : candTry hx (some fy) s rng k = some ((a, b), k')) :
    b = fy := by
  cases hx <;> simp only [candTry] at h
  · simp only [Option.some.injEq, Prod.mk.injEq] at h
    exact h.1.2.symm
  · split at h
    · exact absurd h (by simp)
    · simp only [Option.some.injEq, Prod.mk.injEq] at h
      exact h.1.2.symm

/-- Inversion for `tryCandidate`: an accepted candidate came out of
`candTry` and survived the anti-reversal test. -/
lemma tryCandidate_eq_some {hl hr ht hb : Bool} {pvx pvy s : ℚ}
    {rng : ℕ → Bool} {k k₂ : ℕ} {r : ℚ × ℚ}
    (h : tryCandidate hl hr ht hb pvx pvy s rng k = (some r, k₂)) :
    candTry (hxOf hl hr) (hyOf ht hb) s rng k = some ((r.1, r.2), k₂) ∧
      ¬((1 : ℚ) / 10 ^ 12 < prevSpeedSq pvx pvy ∧
        cosRejectB pvx pvy r.1 r.2 = true) := by
  unfold tryCandidate at h
  rcases hc : candTry (hxOf hl hr) (hyOf ht hb) s rng k with _ | ⟨⟨⟨vx, vy⟩, k'⟩⟩
  · rw [hc] at h; exact absurd h (by simp)
  · rw [hc] at h
    simp only at h
    split at h
    · exact absurd h (by simp)
    · next hneg =>
        rw [Prod.mk.injEq] at h
        obtain ⟨h1, h2⟩ := h
        rw [Option.some.injEq] at h1
        subst h1; subst h2
        exact ⟨rfl, hneg⟩

/-- Inversion for the candidate-list loop. -/
lemma tryCandList_some {hl hr ht hb : Bool} {pvx pvy : ℚ} {rng : ℕ → Bool} :
    ∀ {cands : List ℚ} {k k₂ : ℕ} {r : ℚ × ℚ},
      tryCandList hl hr ht hb pvx pvy rng cands k = (some r, k₂) →
      ∃ s ∈ cands, ∃ k₀ k₁, tryCandidate hl hr ht hb pvx pvy s rng k₀ = (some r, k₁)
  | [], k, k₂, r => by intro h; exact absurd h (by simp [tryCandList])
  | s :: rest, k, k₂, r => by
      intro h
      rw [tryCandList] at h
      rcases ht' : tryCandidate hl hr ht hb pvx pvy s rng k with ⟨o, k'⟩
      rw [ht'] at h
      cases o with
      | some r' =>
          simp only at h
          obtain ⟨h1, _⟩ := Prod.mk.injEq .. ▸ h
          obtain rfl : r' = r := by injection h1 with h1
          exact ⟨s, by simp, k, k', ht'⟩
      | none =>
          simp only at h
          obtain ⟨s', hs', hrest⟩ := tryCandList_some h
          exact ⟨s', by simp [hs'], hrest⟩

/-- Every handedness the search ever tries is ±1. -/
lemma roundCandidates_mem_pm {pvx pvy : ℚ} {rng : ℕ → Bool} {k : ℕ} {s : ℚ}
    (h : s ∈ (roundCandidates (sPrevOpt pvx pvy) rng k).1) :
    s = 1 ∨ s = -1 := by
  rcases hsp : sPrevOpt pvx pvy with _ | sp
  · rw [hsp] at h
    simp only [roundCandidates] at h
    split at h <;> simp at h <;> tauto
  · rw [hsp] at h
    simp only [roundCandidates, List.mem_append, List.mem_filter] at h
    rcases h with ⟨h, -⟩ | h
    · simpa using h
    · simp at h; subst h; exact sPrevOpt_pm hsp

/-- Inversion for the 16-round search. -/
lemma searchRounds_some {hl hr ht hb : Bool} {pvx pvy : ℚ} {rng : ℕ → Bool} :
    ∀ {n k k₂ : ℕ} {r : ℚ × ℚ},
      searchRounds hl hr ht hb pvx pvy rng n k = (some r, k₂) →
      ∃ s, (s = 1 ∨ s = -1) ∧
        ∃ k₀ k₁, tryCandidate hl hr ht hb pvx pvy s rng k₀ = (some r, k₁)
  | 0, k, k₂, r => by intro h; exact absurd h (by simp [searchRounds])
  | n + 1, k, k₂, r => by
      intro h
      rw [searchRounds] at h
      rcases htl : tryCandList hl hr ht hb pvx pvy rng
          (roundCandidates (sPrevOpt pvx pvy) rng k).1
          (roundCandidates (sPrevOpt pvx pvy) rng k).2 with ⟨o, k'⟩
      simp only [htl] at h
      cases o with
      | some r' =>
          simp only at h
          obtain ⟨h1, -⟩ := Prod.mk.injEq .. ▸ h
          obtain rfl : r' = r := by injection h1 with h1
          obtain ⟨s, hs, hrest⟩ := tryCandList_some htl
          exact ⟨s, roundCandidates_mem_pm hs, hrest⟩
      | none =>
          simp only at h
          exact searchRounds_some h

/-- Elimination principle for `pickSigns`: any property that holds of
every candidate that `tryCandidate` can accept (for ±1 handedness) and
of every fallback value holds of the result. -/
lemma pickSigns_elim {hl hr ht hb : Bool} {pvx pvy : ℚ} {rng : ℕ → Bool}
    (P : ℚ × ℚ → Prop)
    (hcand : ∀ s k r k₂, (s = 1 ∨ s = -1) →
      tryCandidate hl hr ht hb pvx pvy s rng k = (some r, k₂) → P r)
    (hfb : ∀ k, P (fallbackSigns hl hr ht hb rng k)) :
    P (pickSigns hl hr ht hb pvx pvy rng) := by
  unfold pickSigns
  rcases hsr : searchRounds hl hr ht hb pvx pvy rng 16 0 with ⟨o, k⟩
  cases o with
  | some r =>
      simp only
      obtain ⟨s, hs, k₀, k₁, hc⟩ := searchRounds_some hsr
      exact hcand s k₀ r k₁ hs hc
  | none => simpa using hfb k

/-! ### Sign-level corollaries -/

lemma fallbackSigns_pm (hl hr ht hb : Bool) (rng : ℕ → Bool) (k : ℕ) :
    ((fallbackSigns hl hr ht hb rng k).1 = 1 ∨ (fallbackSigns hl hr ht hb rng k).1 = -1) ∧
    ((fallbackSigns hl hr ht hb rng k).2 = 1 ∨ (fallbackSigns hl hr ht hb rng k).2 = -1) := by
  unfold fallbackSigns
  cases hl <;> cases hr <;> cases ht <;> cases hb <;>
    simp <;> first | exact choicePM_pm _ | exact ⟨choicePM_pm _, choicePM_pm _⟩

/-- Both components of `pickSigns` are always ±1. -/
lemma pickSigns_pm (hl hr ht hb : Bool) (pvx pvy : ℚ) (rng : ℕ → Bool) :
    ((pickSigns hl hr ht hb pvx pvy rng).1 = 1 ∨ (pickSigns hl hr ht hb pvx pvy rng).1 = -1) ∧
    ((pickSigns hl hr ht hb pvx pvy rng).2 = 1 ∨ (pickSigns hl hr ht hb pvx pvy rng).2 = -1) := by
  refine pickSigns_elim
    (fun r => (r.1 = 1 ∨ r.1 = -1) ∧ (r.2 = 1 ∨ r.2 = -1)) ?_ ?_
  · intro s k r k₂ hs h
    obtain ⟨hc, -⟩ := tryCandidate_eq_some h
    exact candTry_some_pm (hxOf_cases hl hr) (hyOf_cases ht hb) hs hc
  · intro k; exact fallbackSigns_pm hl hr ht hb rng k

/-- `hit_left` forces the horizontal sign to +1 on every path. -/
lemma pickSigns_left (hr ht hb : Bool) (pvx pvy : ℚ) (rng : ℕ → Bool) :
    (pickSigns true hr ht hb pvx pvy rng).1 = 1 := by
  refine pickSigns_elim (fun r => r.1 = 1) ?_ ?_
  · intro s k r k₂ _ h
    obtain ⟨hc, -⟩ := tryCandidate_eq_some h
    rw [show hxOf true hr = some 1 from rfl] at hc
    exact candTry_fst_forced hc
  · intro k; rfl

/-- `hit_right` (without `hit_left`) forces the horizontal sign to -1. -/
lemma pickSigns_right (ht hb : Bool) (pvx pvy : ℚ) (rng : ℕ → Bool) :
    (pickSigns false true ht hb pvx pvy rng).1 = -1 := by
  refine pickSigns_elim (fun r => r.1 = -1) ?_ ?_
  · intro s k r k₂ _ h
    obtain ⟨hc, -⟩ := tryCandidate_eq_some h
    rw [show hxOf false true = some (-1) from rfl] at hc
    exact candTry_fst_forced hc
  · intro k; rfl

/-- `hit_top` forces the vertical sign to +1 on every path. -/
lemma pickSigns_top (hl hr hb : Bool) (pvx pvy : ℚ) (rng : ℕ → Bool) :
    (pickSigns hl hr true hb pvx pvy rng).2 = 1 := by
  refine pickSigns_elim (fun r => r.2 = 1) ?_ ?_
  · intro s k r k₂ _ h
    obtain ⟨hc, -⟩ := tryCandidate_eq_some h
    rw [show hyOf true hb = some 1 from rfl] at hc
    exact candTry_snd_forced hc
  · intro k
    unfold fallbackSigns
    cases hl <;> cases hr <;> rfl

/-- `hit_bottom` (without `hit_top`) forces the vertical sign to -1. -/
lemma pickSigns_bottom (hl hr : Bool) (pvx pvy : ℚ) (rng : ℕ → Bool) :
    (pickSigns hl hr false true pvx pvy rng).2 = -1 := by
  refine pickSigns_elim (fun r => r.2 = -1) ?_ ?_
  · intro s k r k₂ _ h
    obtain ⟨hc, -⟩ := tryCandidate_eq_some h
    rw [show hyOf false true = some (-1) from rfl] at hc
    exact candTry_snd_forced hc
  · intro k
    unfold fallbackSigns
    cases hl <;> cases hr <;> rfl

/-- On a corner (exactly one horizontal and one vertical flag), both
signs are forced, on the search path and the fallback path alike. -/
lemma pickSigns_corner {hl hr ht hb : Bool} (hx_ : hl ≠ hr) (hy_ : ht ≠ hb)
    (pvx pvy : ℚ) (rng : ℕ → Bool) :
    pickSigns hl hr ht hb pvx pvy rng =
      ((if hl then 1 else -1 : ℚ), (if ht then 1 else -1 : ℚ)) := by
  refine pickSigns_elim
    (fun r => r = ((if hl then 1 else -1 : ℚ), (if ht then 1 else -1 : ℚ))) ?_ ?_
  · intro s k r k₂ _ h
    obtain ⟨hc, -⟩ := tryCandidate_eq_some h
    have hhx : hxOf hl hr = some (if hl then 1 else -1) := by
      cases hl <;> cases hr <;> first | rfl | exact absurd rfl hx_
    have hhy : hyOf ht hb = some (if ht then 1 else -1) := by
      cases ht <;> cases hb <;> first | rfl | exact absurd rfl hy_
    rw [hhx, hhy] at hc
    have h1 := candTry_fst_forced hc
    have h2 := candTry_snd_forced hc
    exact Prod.ext h1 h2
  · intro k
    unfold fallbackSigns
    cases hl <;> cases hr <;> cases ht <;> cases hb <;>
      first | rfl | exact absurd rfl hx_ | exact absurd rfl hy_

/-! ### Real-valued bridges -/

lemma comp_pos (speed_mag : ℚ) : 0 < comp speed_mag := by
  unfold comp
  exact div_pos (lt_of_lt_of_le one_pos (le_max_left _ _))
    (Real.sqrt_pos.mpr (by norm_num))

lemma prevSpeedSq_cast (pvx pvy : ℚ) :
    ((prevSpeedSq pvx pvy : ℚ) : ℝ) = (pvx : ℝ) ^ 2 + (pvy : ℝ) ^ 2 := by
  unfold prevSpeedSq; push_cast; ring

lemma prevSpeed_nonneg (pvx pvy : ℚ) : 0 ≤ prevSpeed pvx pvy :=
  Real.sqrt_nonneg _

lemma prevSpeed_sq (pvx pvy : ℚ) :
    prevSpeed pvx pvy ^ 2 = ((prevSpeedSq pvx pvy : ℚ) : ℝ) := by
  rw [prevSpeedSq_cast]
  exact Real.sq_sqrt (by positivity)

lemma prevSpeed_pos {pvx pvy : ℚ} (h : 0 < prevSpeedSq pvx pvy) :
    0 < prevSpeed pvx pvy := by
  unfold prevSpeed
  refine Real.sqrt_pos.mpr ?_
  rw [← prevSpeedSq_cast]
  exact_mod_cast h

/-- The scale `comp` cancels from the source's `cos_sim` when the
candidate is the sign pair scaled by `comp`. -/
lemma cos_sim_reduce (pvx pvy speed_mag sx sy : ℚ) :
    cos_sim pvx pvy speed_mag ((sx : ℝ) * comp speed_mag, (sy : ℝ) * comp speed_mag)
      = ((pvx * sx + pvy * sy : ℚ) : ℝ) / prevSpeed pvx pvy := by
  unfold cos_sim
  have hc : comp speed_mag ≠ 0 := ne_of_gt (comp_pos speed_mag)
  have h1 : (pvx : ℝ) * ((sx : ℝ) * comp speed_mag) + (pvy : ℝ) * ((sy : ℝ) * comp speed_mag)
      = ((pvx * sx + pvy * sy : ℚ) : ℝ) * comp speed_mag := by push_cast; ring
  rw [h1, mul_div_mul_right _ _ hc]

/-- Soundness of the squared embedding of lines 333-336: for a previous
speed above the 1e-6 threshold (indeed for any nonzero previous speed),
`cosRejectB` decides exactly `cos_sim ≤ -0.2`, for every `speed_mag`. -/
lemma cosRejectB_iff {pvx pvy : ℚ} (h : 0 < prevSpeedSq pvx pvy)
    (speed_mag sx sy : ℚ) :
    cosRejectB pvx pvy sx sy = true ↔
      cos_sim pvx pvy speed_mag
        ((sx : ℝ) * comp speed_mag, (sy : ℝ) * comp speed_mag) ≤ -(1 / 5) := by
  rw [cos_sim_reduce]
  have hp : 0 < prevSpeed pvx pvy := prevSpeed_pos h
  have hsq : prevSpeed pvx pvy ^ 2 = ((prevSpeedSq pvx pvy : ℚ) : ℝ) := prevSpeed_sq pvx pvy
  unfold cosRejectB
  simp only [Bool.and_eq_true, decide_eq_true_eq]
  set L : ℚ := pvx * sx + pvy * sy with hL
  constructor
  · rintro ⟨h1, h2⟩
    have h1' : (L : ℝ) < 0 := by exact_mod_cast h1
    have h2' : ((prevSpeedSq pvx pvy : ℚ) : ℝ) ≤ 25 * (L : ℝ) ^ 2 := by exact_mod_cast h2
    have hple : prevSpeed pvx pvy ≤ 5 * (-(L : ℝ)) := by
      have hb : (0 : ℝ) ≤ 5 * (-(L : ℝ)) := by nlinarith
      have h3 : prevSpeed pvx pvy ^ 2 ≤ (5 * (-(L : ℝ))) ^ 2 := by
        rw [hsq]; nlinarith
      calc prevSpeed pvx pvy = Real.sqrt (prevSpeed pvx pvy ^ 2) :=
            (Real.sqrt_sq hp.le).symm
        _ ≤ Real.sqrt ((5 * (-(L : ℝ))) ^ 2) := Real.sqrt_le_sqrt h3
        _ = 5 * (-(L : ℝ)) := Real.sqrt_sq hb
    rw [div_le_iff hp]
    nlinarith
  · intro hle
    rw [div_le_iff hp] at hle
    have h1' : (L : ℝ) < 0 := by nlinarith
    have h2' : ((prevSpeedSq pvx pvy : ℚ) : ℝ) ≤ 25 * (L : ℝ) ^ 2 := by
      rw [← hsq]; nlinarith
    exact ⟨by exact_mod_cast h1', by exact_mod_cast h2'⟩

/-- Soundness of the squared embedding of line 301. -/
lemma nearDiagonal_iff (pvx pvy : ℚ) :
    nearDiagonal pvx pvy = true ↔
      (1 / 10 ^ 6 : ℝ) < prevSpeed pvx pvy ∧
        ((|(|pvx| - |pvy|)| : ℚ) : ℝ) ≤ max 1 ((1 / 20) * prevSpeed pvx pvy) := by
  have hp0 : 0 ≤ prevSpeed pvx pvy := prevSpeed_nonneg pvx pvy
  have hsq : prevSpeed pvx pvy ^ 2 = ((prevSpeedSq pvx pvy : ℚ) : ℝ) := prevSpeed_sq pvx pvy
  have hd0 : (0 : ℝ) ≤ ((|(|pvx| - |pvy|)| : ℚ) : ℝ) := by positivity
  unfold nearDiagonal
  simp only [Bool.and_eq_true, Bool.or_eq_true, decide_eq_true_eq]
  constructor
  · rintro ⟨h1, h2⟩
    have h1' : ((1 : ℚ) / 10 ^ 12 : ℚ) < prevSpeedSq pvx pvy := h1
    have h1r : ((1 : ℝ) / 10 ^ 12) < ((prevSpeedSq pvx pvy : ℚ) : ℝ) := by
      have hcast := (Rat.cast_lt (K := ℝ)).mpr h1'
      have heq : (((1 : ℚ) / 10 ^ 12 : ℚ) : ℝ) = (1 : ℝ) / 10 ^ 12 := by norm_num
      rw [heq] at hcast
      exact hcast
    constructor
    · nlinarith [hsq, hp0]
    · rcases h2 with h2 | h2
      · have : ((|(|pvx| - |pvy|)| : ℚ) : ℝ) ≤ 1 := by exact_mod_cast h2
        exact le_trans this (le_max_left _ _)
      · have h2r : 400 * ((|pvx| - |pvy| : ℚ) : ℝ) ^ 2 ≤ ((prevSpeedSq pvx pvy : ℚ) : ℝ) := by
          exact_mod_cast h2
        refine le_trans ?_ (le_max_right _ _)
        have habs : ((|(|pvx| - |pvy|)| : ℚ) : ℝ) = |((|pvx| - |pvy| : ℚ) : ℝ)| := by
          push_cast; ring_nf
        nlinarith [sq_abs (((|pvx| - |pvy| : ℚ) : ℝ)), abs_nonneg (((|pvx| - |pvy| : ℚ) : ℝ)),
          hsq, hp0, habs ▸ hd0, habs]
  · rintro ⟨h1, h2⟩
    constructor
    · have hr : ((1 : ℝ) / 10 ^ 12) < ((prevSpeedSq pvx pvy : ℚ) : ℝ) := by nlinarith [hsq]
      have heq : (((1 : ℚ) / 10 ^ 12 : ℚ) : ℝ) = (1 : ℝ) / 10 ^ 12 := by norm_num
      exact (Rat.cast_lt (K := ℝ)).mp (heq ▸ hr)
    · rcases le_max_iff.mp h2 with h2 | h2
      · exact Or.inl (by exact_mod_cast h2)
      · refine Or.inr ?_
        have habs : ((|(|pvx| - |pvy|)| : ℚ) : ℝ) = |((|pvx| - |pvy| : ℚ) : ℝ)| := by
          push_cast; ring_nf
        have : 400 * ((|pvx| - |pvy| : ℚ) : ℝ) ^ 2 ≤ ((prevSpeedSq pvx pvy : ℚ) : ℝ) := by
          nlinarith [sq_abs (((|pvx| - |pvy| : ℚ) : ℝ)), habs ▸ hd0, hsq, hp0, habs]
        exact_mod_cast this

/-! ### Evaluation of the no-edge, exactly-diagonal-previous call (C1) -/

/-- For an exactly diagonal previous velocity the first tried candidate
(the handedness opposite to `s_prev`, line 307 putting `s_prev` last)
is perpendicular to the previous velocity, so the dot product vanishes. -/
lemma diag_sub_zero {pvx pvy : ℚ} (hd : |pvx| = |pvy|) :
    pvx - (signf pvy / signf pvx) * pvy = 0 := by
  unfold signf
  rcases le_or_lt 0 pvx with h1 | h1 <;> rcases le_or_lt 0 pvy with h2 | h2
  · rw [abs_of_nonneg h1, abs_of_nonneg h2] at hd
    rw [if_pos h1, if_pos h2]; ring_nf; linarith
  · rw [abs_of_nonneg h1, abs_of_neg h2] at hd
    rw [if_pos h1, if_neg (not_le.mpr h2)]; ring_nf; linarith
  · rw [abs_of_neg h1, abs_of_nonneg h2] at hd
    rw [if_neg (not_le.mpr h1), if_pos h2]; ring_nf; linarith
  · rw [abs_of_neg h1, abs_of_neg h2] at hd
    rw [if_neg (not_le.mpr h1), if_neg (not_le.mpr h2)]; ring_nf; linarith

/-- With no edge flag and an exactly diagonal previous velocity above the
epsilon, the search accepts its very first candidate: the opposite
handedness (line 307 orders `s_prev` last), whose dot product with the
previous velocity is zero, passing the anti-reversal test. -/
lemma pickSigns_noflags_diag (pvx pvy : ℚ) (rng : ℕ → Bool)
    (hd : |pvx| = |pvy|) (hp : (1 : ℚ) / 10 ^ 12 < prevSpeedSq pvx pvy) :
    pickSigns false false false false pvx pvy rng
      = (choicePM (rng 0), -(signf pvy / signf pvx) * choicePM (rng 0)) := by
  set sp : ℚ := signf pvy / signf pvx with hspdef
  have hnd : nearDiagonal pvx pvy = true := by
    have hp' : ((10 : ℚ) ^ 12)⁻¹ < prevSpeedSq pvx pvy := by rwa [← one_div]
    unfold nearDiagonal
    rw [hd]
    simp [hp']
  have hsp : sPrevOpt pvx pvy = some sp := by
    unfold sPrevOpt
    rw [hnd]
    simp
  have hspm : sp = 1 ∨ sp = -1 := sPrevOpt_pm hsp
  have hL : pvx - sp * pvy = 0 := diag_sub_zero hd
  have hcand : tryCandidate false false false false pvx pvy (-sp) rng 0
      = (some (choicePM (rng 0), -sp * choicePM (rng 0)), 1) := by
    unfold tryCandidate
    have hct : candTry (hxOf false false) (hyOf false false) (-sp) rng 0
        = some ((choicePM (rng 0), -sp * choicePM (rng 0)), 1) := rfl
    rw [hct]
    simp only
    rw [if_neg]
    rintro ⟨-, hcr⟩
    unfold cosRejectB at hcr
    simp only [Bool.and_eq_true, decide_eq_true_eq] at hcr
    obtain ⟨hlt, -⟩ := hcr
    have hre : pvx * choicePM (rng 0) + pvy * (-sp * choicePM (rng 0))
        = choicePM (rng 0) * (pvx - sp * pvy) := by ring
    rw [hre, hL, mul_zero] at hlt
    exact lt_irrefl 0 hlt
  have hfilter : ((([1, -1] : List ℚ).filter fun x => decide (x ≠ sp)) ++ [sp] : List ℚ)
      = [-sp, sp] := by
    rcases hspm with h | h <;> rw [h] <;> with_unfolding_all rfl
  have hround : roundCandidates (sPrevOpt pvx pvy) rng 0 = ([-sp, sp], 0) := by
    rw [hsp]
    simp only [roundCandidates]
    rw [hfilter]
  have hlist : tryCandList false false false false pvx pvy rng [-sp, sp] 0
      = (some (choicePM (rng 0), -sp * choicePM (rng 0)), 1) := by
    rw [tryCandList, hcand]
  have hsearch : searchRounds false false false false pvx pvy rng 16 0
      = (some (choicePM (rng 0), -sp * choicePM (rng 0)), 1) := by
    rw [show (16 : ℕ) = 15 + 1 from rfl]
    rw [searchRounds]
    simp only [hround, hlist]
  unfold pickSigns
  rw [hsearch]

/-! ### Facts about the animation position update (C8) -/

lemma clamp_mem {v lo hi : ℚ} (h : lo ≤ hi) :
    lo ≤ clamp v lo hi ∧ clamp v lo hi ≤ hi := by
  unfold clamp
  exact ⟨le_max_left _ _, max_le h (min_le_right _ _)⟩

/-- One edge-resolution pass always lands inside the screen rectangle,
provided it is at least two pixels wide and tall. -/
lemma resolveEdges_inBounds {max_x max_y : ℚ} (hmx : 1 ≤ max_x)
    (hmy : 1 ≤ max_y) (px py : ℚ) :
    inBounds max_x max_y (resolveEdges max_x max_y px py).1 := by
  have hcx := clamp_mem (v := px) (le_trans zero_le_one hmx)
  have hcy := clamp_mem (v := py) (le_trans zero_le_one hmy)
  unfold resolveEdges inBounds
  split
  · dsimp only
    refine ⟨?_, ?_, ?_, ?_⟩ <;> split_ifs <;> first | linarith [hcx.1, hcx.2] | linarith [hcy.1, hcy.2]
  · next hno =>
    push_neg at hno
    dsimp only
    exact ⟨hno.1, hno.2.1, hno.2.2.1, hno.2.2.2⟩

/-- A position integrated to `max_x + 5` is always resolved to exactly
`max_x - 1` (clamp to `max_x`, then the one-pixel right-edge nudge). -/
lemma resolveEdges_overshoot (max_x max_y py : ℚ) :
    ((resolveEdges max_x max_y (max_x + 5) py).1).1 = max_x - 1 := by
  have hR : max_x < max_x + 5 := by linarith
  unfold resolveEdges
  rw [if_pos (Or.inr (Or.inl hR))]
  dsimp only
  rw [if_pos hR]

/-- The in-bounds invariant of the animation loop's write positions. -/
lemma animPositions_inBounds {max_x max_y : ℚ} (hmx : 1 ≤ max_x)
    (hmy : 1 ≤ max_y) (vel : ℕ → ℚ × ℚ) (dt : ℕ → ℚ) (p0 : ℚ × ℚ)
    (h0 : inBounds max_x max_y p0) :
    ∀ n, inBounds max_x max_y (animPositions max_x max_y vel dt p0 n)
  | 0 => h0
  | n + 1 => by
      rw [animPositions]
      exact resolveEdges_inBounds hmx hmy _ _

/-! ### Facts about the idle monitor trace (C6) -/

lemma runOnlyAfterThreshold_nil (thr : ℚ) : runOnlyAfterThreshold thr [] := by
  intro i h
  simp at h

lemma runOnlyAfterThreshold_cons {thr : ℚ} {e : MonEv} (he : e ≠ MonEv.runAnim)
    {evs : List MonEv} (h : runOnlyAfterThreshold thr evs) :
    runOnlyAfterThreshold thr (e :: evs) := by
  intro i hi
  cases i with
  | zero => simp at hi; exact absurd hi he
  | succ i =>
      obtain ⟨j, hj, q, hq, hthr⟩ := h i (by simpa using hi)
      exact ⟨j + 1, Nat.succ_lt_succ hj, q, by simpa using hq, hthr⟩

/-- A poll that met the threshold licenses everything after it. -/
lemma runOnlyAfterThreshold_poll {thr q : ℚ} (hq : thr ≤ q) (evs : List MonEv) :
    runOnlyAfterThreshold thr (MonEv.pollIdle q :: evs) := by
  intro i hi
  cases i with
  | zero => simp at hi
  | succ i => exact ⟨0, Nat.succ_pos _, q, rfl, hq⟩

/-- Inside `monitor_idle_and_run` every animation burst is entered only
right after an idle poll that returned at least the threshold. -/
lemma monitorEvents_guarded (thr : ℚ) (hot : ℕ → Bool) (idleMs : ℕ → ℕ) :
    ∀ fuel t, runOnlyAfterThreshold thr (monitorEvents thr hot idleMs fuel t)
  | 0, _ => runOnlyAfterThreshold_nil thr
  | fuel + 1, t => by
      rw [monitorEvents]
      split
      · exact runOnlyAfterThreshold_cons (by simp)
          (runOnlyAfterThreshold_cons (by simp) (runOnlyAfterThreshold_nil thr))
      · refine runOnlyAfterThreshold_cons (by simp) ?_
        split
        · next hth => exact runOnlyAfterThreshold_poll hth _
        · next hth =>
            exact runOnlyAfterThreshold_cons (by simp)
              (runOnlyAfterThreshold_cons (by simp)
                (monitorEvents_guarded thr hot idleMs fuel (t + 1)))

/-! ### Facts about the animation loop exits (C9) -/

/-- The loop body does not read the X status stream. -/
lemma animLoop_xStatus (env : AnimEnv) (f : ℕ → ℤ) (max_x max_y : ℚ) :
    ∀ fuel t i pos vel,
      animLoop { env with xStatus := f } max_x max_y fuel t i pos vel
        = animLoop env max_x max_y fuel t i pos vel
  | 0, _, _, _, _ => rfl
  | fuel + 1, t, i, pos, vel => by
      simp only [animLoop]
      rw [animLoop_xStatus env f max_x max_y fuel]

/-! ### Claim C1 -/

/-- C1 counterexample: for previous velocity (+100, +100) and no edge
flags (and any speed, here 100, and the all-false bit stream), the claim
asserts `sign(vy) = sign(vx)`; the code returns `vx < 0 < vy`: line 307
puts `s_prev` last, so the opposite handedness is tried first, and its
dot product with the diagonal previous velocity is 0, which passes the
anti-reversal test. -/
theorem c1_counterexample :
    (pick_diagonal_velocity 100 false false false false 100 100 (fun _ => false)).1 < 0 ∧
    0 < (pick_diagonal_velocity 100 false false false false 100 100 (fun _ => false)).2 := by
  have h : pickSigns false false false false 100 100 (fun _ => false) = (-1, 1) := by
    with_unfolding_all rfl
  unfold pick_diagonal_velocity
  rw [h]
  dsimp only
  have hc := comp_pos 100
  constructor <;> push_cast <;> linarith

/-- C1 (amended): for every call with no edge flag set and an exactly
diagonal previous velocity (`|pvx| = |pvy|`, squared magnitude above
1e-12), the returned velocity has the OPPOSITE handedness of the
previous one: `vy = -(sign(pvy)/sign(pvx)) * vx`.  (The frozen claim
asserts the same handedness; the code orders `s_prev` last among the
candidates, and the opposite-handedness candidate — perpendicular to the
previous velocity — always survives the anti-reversal test and is
returned in the first round.) -/
theorem c1_opposite_handedness (speed_mag pvx pvy : ℚ) (rng : ℕ → Bool)
    (hd : |pvx| = |pvy|) (hp : (1 : ℚ) / 10 ^ 12 < prevSpeedSq pvx pvy) :
    (pick_diagonal_velocity speed_mag false false false false pvx pvy rng).2
      = -((signf pvy / signf pvx : ℚ) : ℝ) *
        (pick_diagonal_velocity speed_mag false false false false pvx pvy rng).1 := by
  have h := pickSigns_noflags_diag pvx pvy rng hd hp
  unfold pick_diagonal_velocity
  rw [h]
  dsimp only
  push_cast
  ring

/-- Witness for C1's amended theorem at previous velocity (100, 100). -/
theorem c1_witness :
    (pick_diagonal_velocity 50 false false false false 100 100 (fun _ => true)).2
      = -((signf 100 / signf 100 : ℚ) : ℝ) *
        (pick_diagonal_velocity 50 false false false false 100 100 (fun _ => true)).1 :=
  c1_opposite_handedness 50 100 100 (fun _ => true) (by norm_num)
    (by norm_num [prevSpeedSq])

/-! ### Claim C2 -/

/-- C2: for every input — any speed, any flag combination, any previous
velocity, any randomness — both components of the returned velocity have
absolute value exactly `max(1, speed_mag) / sqrt 2` (line 294's `comp`);
in particular this holds for every speed with no edges hit. -/
theorem c2_component_magnitude (speed_mag : ℚ) (hl hr ht hb : Bool)
    (pvx pvy : ℚ) (rng : ℕ → Bool) :
    |(pick_diagonal_velocity speed_mag hl hr ht hb pvx pvy rng).1|
        = max 1 (speed_mag : ℝ) / Real.sqrt 2 ∧
    |(pick_diagonal_velocity speed_mag hl hr ht hb pvx pvy rng).2|
        = max 1 (speed_mag : ℝ) / Real.sqrt 2 := by
  obtain ⟨h1, h2⟩ := pickSigns_pm hl hr ht hb pvx pvy rng
  have hc : (0 : ℝ) ≤ comp speed_mag := (comp_pos speed_mag).le
  unfold pick_diagonal_velocity
  constructor
  · rcases h1 with h | h <;> rw [h] <;> push_cast
    · rw [one_mul, abs_of_nonneg hc]; rfl
    · rw [neg_one_mul, abs_neg, abs_of_nonneg hc]; rfl
  · rcases h2 with h | h <;> rw [h] <;> push_cast
    · rw [one_mul, abs_of_nonneg hc]; rfl
    · rw [neg_one_mul, abs_neg, abs_of_nonneg hc]; rfl

/-! ### Claim C3 -/

/-- C3 counterexample: with `hit_left` and `hit_right` both set, line 312
gives `hit_left` precedence and the returned `vx` is positive, refuting
the claim's unconditional "hit_right = true ⟹ vx < 0". -/
theorem c3_counterexample :
    0 < (pick_diagonal_velocity 100 true true false false 0 0 (fun _ => false)).1 := by
  have h : pickSigns true true false false 0 0 (fun _ => false) = (1, 1) := by
    with_unfolding_all rfl
  unfold pick_diagonal_velocity
  rw [h]
  dsimp only
  push_cast
  rw [one_mul]
  exact comp_pos 100

/-- C3 (amended): `hit_left` forces `vx > 0`; `hit_right` forces `vx < 0`
when `hit_left` is not also set (line 312 gives left precedence);
symmetrically `hit_top` forces `vy > 0` and `hit_bottom` forces `vy < 0`
when `hit_top` is not also set (line 313). -/
theorem c3_forced_away_from_walls (speed_mag : ℚ) (hl hr ht hb : Bool)
    (pvx pvy : ℚ) (rng : ℕ → Bool) :
    (hl = true → 0 < (pick_diagonal_velocity speed_mag hl hr ht hb pvx pvy rng).1) ∧
    (hl = false → hr = true →
      (pick_diagonal_velocity speed_mag hl hr ht hb pvx pvy rng).1 < 0) ∧
    (ht = true → 0 < (pick_diagonal_velocity speed_mag hl hr ht hb pvx pvy rng).2) ∧
    (ht = false → hb = true →
      (pick_diagonal_velocity speed_mag hl hr ht hb pvx pvy rng).2 < 0) := by
  have hc := comp_pos speed_mag
  refine ⟨?_, ?_, ?_, ?_⟩
  · rintro rfl
    unfold pick_diagonal_velocity
    rw [pickSigns_left hr ht hb pvx pvy rng]
    push_cast
    rw [one_mul]
    exact hc
  · rintro rfl rfl
    unfold pick_diagonal_velocity
    rw [pickSigns_right ht hb pvx pvy rng]
    push_cast
    rw [neg_one_mul]
    linarith
  · rintro rfl
    unfold pick_diagonal_velocity
    rw [pickSigns_top hl hr hb pvx pvy rng]
    push_cast
    rw [one_mul]
    exact hc
  · rintro rfl rfl
    unfold pick_diagonal_velocity
    rw [pickSigns_bottom hl hr pvx pvy rng]
    push_cast
    rw [neg_one_mul]
    linarith

/-- Witness for C3's amended theorem: a left+top call and a right+bottom
call. -/
theorem c3_witness :
    (0 < (pick_diagonal_velocity 300 true false true false 3 4 (fun _ => true)).1 ∧
      0 < (pick_diagonal_velocity 300 true false true false 3 4 (fun _ => true)).2) ∧
    ((pick_diagonal_velocity 300 false true false true 3 4 (fun _ => true)).1 < 0 ∧
      (pick_diagonal_velocity 300 false true false true 3 4 (fun _ => true)).2 < 0) :=
  ⟨⟨(c3_forced_away_from_walls 300 true false true false 3 4 (fun _ => true)).1 rfl,
    (c3_forced_away_from_walls 300 true false true false 3 4 (fun _ => true)).2.2.1 rfl⟩,
   ⟨(c3_forced_away_from_walls 300 false true false true 3 4 (fun _ => true)).2.1 rfl rfl,
    (c3_forced_away_from_walls 300 false true false true 3 4 (fun _ => true)).2.2.2 rfl rfl⟩⟩

/-! ### Claim C4 -/

/-- C4 counterexample: for the tiny previous velocity (1e-7, 1e-7) —
below line 333's `prev_speed > 1e-6` guard — the bounded search itself
(not the fallback) returns a velocity whose cosine similarity to the
previous velocity is -sqrt 2 ≤ -0.2: the anti-reversal test is skipped
entirely, refuting "every candidate with cosine similarity ≤ -0.2 is
rejected; only the fallback path may return such a vector". -/
theorem c4_counterexample :
    (searchRounds false false false false (1 / 10 ^ 7) (1 / 10 ^ 7)
        (fun _ => false) 16 0).1 = some (-1, -1) ∧
    cos_sim (1 / 10 ^ 7) (1 / 10 ^ 7) 100
        (pick_diagonal_velocity 100 false false false false (1 / 10 ^ 7) (1 / 10 ^ 7)
          (fun _ => false))
      ≤ -(1 / 5 : ℝ) := by
  constructor
  · with_unfolding_all rfl
  · have h : pickSigns false false false false (1 / 10 ^ 7) (1 / 10 ^ 7)
        (fun _ => false) = (-1, -1) := by with_unfolding_all rfl
    unfold pick_diagonal_velocity
    rw [h]
    dsimp only
    rw [cos_sim_reduce]
    have hps : prevSpeed (1 / 10 ^ 7 : ℚ) (1 / 10 ^ 7 : ℚ) = Real.sqrt 2 / 10 ^ 7 := by
      unfold prevSpeed
      have h1 : (((1 : ℚ) / 10 ^ 7 : ℚ) : ℝ) = (1 : ℝ) / 10 ^ 7 := by norm_num
      rw [h1]
      have h2 : ((1 : ℝ) / 10 ^ 7) ^ 2 + ((1 : ℝ) / 10 ^ 7) ^ 2
          = (Real.sqrt 2 / 10 ^ 7) ^ 2 := by
        have hpow : (Real.sqrt 2 / 10 ^ 7 : ℝ) ^ 2
            = (Real.sqrt 2 : ℝ) ^ 2 / ((10 : ℝ) ^ 7) ^ 2 := div_pow ..
        rw [hpow, Real.sq_sqrt (by norm_num : (0 : ℝ) ≤ 2)]
        norm_num
      rw [h2, Real.sqrt_sq (by positivity)]
    rw [hps]
    have hnum : (((1 : ℚ) / 10 ^ 7 * (-1) + (1 : ℚ) / 10 ^ 7 * (-1) : ℚ) : ℝ)
        = -(2 / 10 ^ 7) := by push_cast; ring
    rw [hnum]
    have hspos : (0 : ℝ) < Real.sqrt 2 := Real.sqrt_pos.mpr (by norm_num)
    have hmul : Real.sqrt 2 * Real.sqrt 2 = 2 := Real.mul_self_sqrt (by norm_num)
    have hs2 : (1 : ℝ) ≤ Real.sqrt 2 := by
      nlinarith
    have heq : -(2 / 10 ^ 7 : ℝ) / (Real.sqrt 2 / 10 ^ 7) = -Real.sqrt 2 := by
      rw [div_div_eq_mul_div, div_eq_iff (ne_of_gt hspos), neg_mul, neg_mul, hmul]
      norm_num
    rw [heq]
    linarith

/-- C4 (amended): whenever the previous speed is above line 333's 1e-6
guard (squared form: `prevSpeedSq > 1e-12`), every velocity the bounded
search returns has cosine similarity (line 334's `cos_sim`) strictly
above -0.2 — only the fallback may return a sharper reversal; and the
claim's concrete test holds: for previous velocity (100, 100) with
`hit_right` the only flag, the returned `vy` is positive and the cosine
similarity of the result exceeds -0.2 (it is 0), for every speed and
randomness. -/
theorem c4_search_rejects_reversals :
    (∀ (hl hr ht hb : Bool) (pvx pvy speed_mag : ℚ) (rng : ℕ → Bool)
        (n k k₂ : ℕ) (r : ℚ × ℚ),
        searchRounds hl hr ht hb pvx pvy rng n k = (some r, k₂) →
        (1 : ℚ) / 10 ^ 12 < prevSpeedSq pvx pvy →
        -(1 / 5 : ℝ) < cos_sim pvx pvy speed_mag
          ((r.1 : ℝ) * comp speed_mag, (r.2 : ℝ) * comp speed_mag)) ∧
    (∀ (speed_mag : ℚ) (rng : ℕ → Bool),
        0 < (pick_diagonal_velocity speed_mag false true false false 100 100 rng).2 ∧
        -(1 / 5 : ℝ) < cos_sim 100 100 speed_mag
          (pick_diagonal_velocity speed_mag false true false false 100 100 rng)) := by
  constructor
  · intro hl hr ht hb pvx pvy speed_mag rng n k k₂ r hsr hp
    obtain ⟨s, -, k₀, k₁, hcand⟩ := searchRounds_some hsr
    obtain ⟨-, hguard⟩ := tryCandidate_eq_some hcand
    have hcr : cosRejectB pvx pvy r.1 r.2 = false := by
      rcases Bool.eq_false_or_eq_true (cosRejectB pvx pvy r.1 r.2) with h | h
      · exact absurd ⟨hp, h⟩ hguard
      · exact h
    have h0 : 0 < prevSpeedSq pvx pvy := lt_trans (by norm_num) hp
    by_contra hcon
    push_neg at hcon
    have := (cosRejectB_iff h0 speed_mag r.1 r.2).mpr hcon
    rw [hcr] at this
    exact Bool.false_ne_true this
  · intro speed_mag rng
    have h : pickSigns false true false false 100 100 rng = (-1, 1) := by
      with_unfolding_all rfl
    have hc := comp_pos speed_mag
    constructor
    · unfold pick_diagonal_velocity
      rw [h]
      dsimp only
      push_cast
      rw [one_mul]
      exact hc
    · unfold pick_diagonal_velocity
      rw [h]
      dsimp only
      rw [cos_sim_reduce]
      norm_num

/-- Witness for C4's amended theorem: a search acceptance with previous
velocity (100, 100) and no flags, and the concrete hit-right test. -/
theorem c4_witness :
    -(1 / 5 : ℝ) < cos_sim 100 100 100
        (((-1 : ℚ) : ℝ) * comp 100, ((1 : ℚ) : ℝ) * comp 100) ∧
    (0 < (pick_diagonal_velocity 100 false true false false 100 100 (fun _ => false)).2 ∧
      -(1 / 5 : ℝ) < cos_sim 100 100 100
        (pick_diagonal_velocity 100 false true false false 100 100 (fun _ => false))) :=
  ⟨c4_search_rejects_reversals.1 false false false false 100 100 100 (fun _ => false)
      16 0 1 (-1, 1) (by with_unfolding_all rfl) (by norm_num [prevSpeedSq]),
    c4_search_rejects_reversals.2 100 (fun _ => false)⟩

/-! ### Claim C5 -/

/-- C5: a corner hit with `hit_left` and `hit_top` (whatever the other
flags, the previous velocity and the randomness) always yields
`vx > 0 ∧ vy > 0`; and a candidate handedness that does not match the
forced (+1, +1) corner combination (here s = -1) is rejected by
line 327's mismatch test, so another candidate is tried. -/
theorem c5_corner_left_top (speed_mag : ℚ) (hr hb : Bool) (pvx pvy : ℚ)
    (rng : ℕ → Bool) (k : ℕ) :
    0 < (pick_diagonal_velocity speed_mag true hr true hb pvx pvy rng).1 ∧
    0 < (pick_diagonal_velocity speed_mag true hr true hb pvx pvy rng).2 ∧
    (tryCandidate true hr true hb pvx pvy (-1) rng k).1 = none := by
  have hc := comp_pos speed_mag
  refine ⟨?_, ?_, ?_⟩
  · unfold pick_diagonal_velocity
    rw [pickSigns_left hr true hb pvx pvy rng]
    push_cast
    rw [one_mul]
    exact hc
  · unfold pick_diagonal_velocity
    rw [pickSigns_top true hr hb pvx pvy rng]
    push_cast
    rw [one_mul]
    exact hc
  · with_unfolding_all rfl

/-! ### Claim C6 -/

/-- C6 counterexample: `main` invokes `run_cursor_screensaver`
unconditionally before entering the monitor (lines 452-453): with a
600-second threshold and an environment that is never idle and never
presses the hotkey, the very first event of `main`'s trace is the
animation entry, with no prior idle poll at all. -/
theorem c6_counterexample :
    ¬ runOnlyAfterThreshold 600 (mainEvents 600 (fun _ => false) (fun _ => 0) 1) := by
  intro h
  obtain ⟨j, hj, -⟩ := h 0 rfl
  exact absurd hj (Nat.not_lt_zero j)

/-- C6 (amended): within `monitor_idle_and_run` the animation loop is
entered only immediately after an idle poll that returned at least the
threshold (below the threshold the monitor only polls and sleeps);
however `main` additionally invokes `run_cursor_screensaver` once
unconditionally at startup, before the monitor loop. -/
theorem c6_monitor_guarded (thr : ℚ) (hot : ℕ → Bool) (idleMs : ℕ → ℕ)
    (fuel t : ℕ) :
    runOnlyAfterThreshold thr (monitorEvents thr hot idleMs fuel t) ∧
    mainEvents thr hot idleMs fuel
      = MonEv.runAnim :: monitorEvents thr hot idleMs fuel 0 :=
  ⟨monitorEvents_guarded thr hot idleMs fuel t, rfl⟩

/-- Witness for C6's amended theorem: a monitor trace that does run the
animation (idle 3 s against threshold 2 s). -/
theorem c6_witness :
    runOnlyAfterThreshold 2 (monitorEvents 2 (fun _ => false) (fun _ => 3000) 3 0) :=
  (c6_monitor_guarded 2 (fun _ => false) (fun _ => 3000) 3 0).1

/-! ### Claim C7 -/

/-- C7: `pick_diagonal_velocity` is total with the documented shape —
the result's sign pair is always ±1 in each component (so a velocity
vector is always returned); when the 16-round search finds nothing the
result is exactly the fallback rule evaluated at the first unconsumed
random index; and the fallback forces each constrained axis away from
its wall, draws unconstrained signs from the random source, and applies
no anti-reversal test (it never reads the previous velocity — it takes
none as input). -/
theorem c7_total_with_fallback :
    (∀ (hl hr ht hb : Bool) (pvx pvy : ℚ) (rng : ℕ → Bool),
        ((pickSigns hl hr ht hb pvx pvy rng).1 = 1 ∨
          (pickSigns hl hr ht hb pvx pvy rng).1 = -1) ∧
        ((pickSigns hl hr ht hb pvx pvy rng).2 = 1 ∨
          (pickSigns hl hr ht hb pvx pvy rng).2 = -1)) ∧
    (∀ (hl hr ht hb : Bool) (pvx pvy : ℚ) (rng : ℕ → Bool) (k : ℕ),
        searchRounds hl hr ht hb pvx pvy rng 16 0 = (none, k) →
        pickSigns hl hr ht hb pvx pvy rng = fallbackSigns hl hr ht hb rng k) ∧
    (∀ (hl hr ht hb : Bool) (rng : ℕ → Bool) (k : ℕ),
        (hl = true → (fallbackSigns hl hr ht hb rng k).1 = 1) ∧
        (hl = false → hr = true → (fallbackSigns hl hr ht hb rng k).1 = -1) ∧
        (hl = false → hr = false →
          (fallbackSigns hl hr ht hb rng k).1 = choicePM (rng k)) ∧
        (ht = true → (fallbackSigns hl hr ht hb rng k).2 = 1) ∧
        (ht = false → hb = true → (fallbackSigns hl hr ht hb rng k).2 = -1)) := by
  refine ⟨?_, ?_, ?_⟩
  · intro hl hr ht hb pvx pvy rng
    exact pickSigns_pm hl hr ht hb pvx pvy rng
  · intro hl hr ht hb pvx pvy rng k h
    unfold pickSigns
    rw [h]
  · intro hl hr ht hb rng k
    refine ⟨?_, ?_, ?_, ?_, ?_⟩
    · rintro rfl; rfl
    · rintro rfl rfl; rfl
    · rintro rfl rfl; rfl
    · rintro rfl
      unfold fallbackSigns
      cases hl <;> cases hr <;> rfl
    · rintro rfl rfl
      unfold fallbackSigns
      cases hl <;> cases hr <;> rfl

/-- Witness for C7: a corner call whose previous velocity is a full
reversal, making all 16 rounds fail, so the result is the fallback. -/
theorem c7_witness :
    pickSigns true false true false (-100) (-100) (fun _ => false)
        = fallbackSigns true false true false (fun _ => false) 0 ∧
    (fallbackSigns true false true false (fun _ => false) 0).1 = 1 :=
  ⟨c7_total_with_fallback.2.1 true false true false (-100) (-100) (fun _ => false) 0
      (by with_unfolding_all rfl),
    (c7_total_with_fallback.2.2 true false true false (fun _ => false) 0).1 rfl⟩

/-! ### Claim C8 -/

/-- C8 counterexample: on a one-pixel-wide screen (`max_x = 0`), the
right-edge nudge of line 396 puts the position at -1, outside
`[0, max_x]`, here starting from the in-bounds position (0, 3) with
velocity (5, 0) and dt = 1 — so the position handed to the pointer write
is not within `[0, width-1]`. -/
theorem c8_counterexample :
    ((animStepPos 0 7 5 0 1 0 3).1).1 < 0 := by
  have h : ((animStepPos 0 7 5 0 1 0 3).1).1 = -1 := by with_unfolding_all rfl
  rw [h]
  norm_num

/-- C8 (amended): provided the screen is at least two pixels wide and
tall (`max_x ≥ 1`, `max_y ≥ 1`) and the start position is in bounds,
every position handed to the pointer write stays in
`[0, max_x] × [0, max_y]`; and — unconditionally — a position integrated
to `max_x + 5` is resolved by one edge-resolution pass to exactly
`max_x - 1` (clamp to `max_x`, then the one-pixel right-edge nudge). -/
theorem c8_positions_in_bounds (max_x max_y : ℚ) (vel : ℕ → ℚ × ℚ)
    (dt : ℕ → ℚ) (p0 : ℚ × ℚ) (hmx : 1 ≤ max_x) (hmy : 1 ≤ max_y)
    (h0 : inBounds max_x max_y p0) :
    (∀ n, inBounds max_x max_y (animPositions max_x max_y vel dt p0 n)) ∧
    (∀ py, ((resolveEdges max_x max_y (max_x + 5) py).1).1 = max_x - 1) :=
  ⟨animPositions_inBounds hmx hmy vel dt p0 h0,
    fun py => resolveEdges_overshoot max_x max_y py⟩

/-- Witness for C8's amended theorem on a 11x11 screen. -/
theorem c8_witness :
    inBounds 10 10 (animPositions 10 10 (fun _ => (3, 4)) (fun _ => 1) (5, 5) 3) ∧
    ((resolveEdges 10 10 (10 + 5) 2).1).1 = 10 - 1 :=
  ⟨(c8_positions_in_bounds 10 10 (fun _ => (3, 4)) (fun _ => 1) (5, 5)
      (by norm_num) (by norm_num) (by norm_num [inBounds])).1 3,
    (c8_positions_in_bounds 10 10 (fun _ => (3, 4)) (fun _ => 1) (5, 5)
      (by norm_num) (by norm_num) (by norm_num [inBounds])).2 2⟩

/-! ### Claim C9 -/

/-- C9: on every exit of the animation loop the cursor restore is the
last recorded action before the exit reason is delivered — both for the
break on detected real input and for the hotkey's process-termination
path, each exhibited explicitly — and the loop's outcome never depends
on the X status codes that `restore_cursor` ignores (failures of the
restore are swallowed: the source never inspects those statuses). -/
theorem c9_restore_on_every_exit :
    (∀ (env : AnimEnv) (max_x max_y : ℚ) (fuel t idle0 : ℕ) (pos vel : ℚ × ℚ)
        (e : AnimExit),
        (runScreensaver env max_x max_y fuel t idle0 pos vel).2 = some e →
        ∃ pre, (runScreensaver env max_x max_y fuel t idle0 pos vel).1
          = pre ++ [AnimEv.restoreCursor (env.xStatus 0)]) ∧
    (∀ (env : AnimEnv) (max_x max_y : ℚ) (fuel t idle0 : ℕ) (pos vel : ℚ × ℚ),
        env.hot t = true →
        runScreensaver env max_x max_y (fuel + 1) t idle0 pos vel
          = ([AnimEv.hotkeyCheck true, AnimEv.restoreCursor (env.xStatus 0)],
              some AnimExit.procQuit)) ∧
    (∀ (env : AnimEnv) (max_x max_y : ℚ) (fuel t idle0 : ℕ) (pos vel : ℚ × ℚ),
        env.hot t = false → env.idleMs t + 50 < idle0 →
        runScreensaver env max_x max_y (fuel + 1) t idle0 pos vel
          = ([AnimEv.hotkeyCheck false, AnimEv.idleQuery (env.idleMs t),
              AnimEv.restoreCursor (env.xStatus 0)], some AnimExit.inputBreak)) ∧
    (∀ (env : AnimEnv) (f : ℕ → ℤ) (max_x max_y : ℚ) (fuel t idle0 : ℕ)
        (pos vel : ℚ × ℚ),
        (runScreensaver { env with xStatus := f } max_x max_y fuel t idle0 pos vel).2
          = (runScreensaver env max_x max_y fuel t idle0 pos vel).2) := by
  refine ⟨?_, ?_, ?_, ?_⟩
  · intro env max_x max_y fuel t idle0 pos vel e h
    unfold runScreensaver at h ⊢
    rcases hA : animLoop env max_x max_y fuel t idle0 pos vel with ⟨tr, o⟩
    rw [hA] at h
    cases o with
    | none => exact Option.noConfusion h
    | some e' => exact ⟨tr, rfl⟩
  · intro env max_x max_y fuel t idle0 pos vel h
    unfold runScreensaver
    simp only [animLoop, h]
    rfl
  · intro env max_x max_y fuel t idle0 pos vel h1 h2
    unfold runScreensaver
    simp only [animLoop, h1]
    rw [if_neg (show ¬(false = true) by simp), if_pos h2]
    rfl
  · intro env f max_x max_y fuel t idle0 pos vel
    unfold runScreensaver
    rw [animLoop_xStatus env f max_x max_y fuel t idle0 pos vel]
    rcases hA : animLoop env max_x max_y fuel t idle0 pos vel with ⟨tr, o⟩
    cases o <;> rfl

/-- Witness for C9: the hotkey path on a concrete environment. -/
theorem c9_witness :
    runScreensaver ⟨fun _ => true, fun _ => 0, fun _ => 0, fun _ => (0, 0), fun _ => 0⟩
        4 4 1 0 0 (1, 1) (2, 2)
      = ([AnimEv.hotkeyCheck true, AnimEv.restoreCursor 0], some AnimExit.procQuit) :=
  c9_restore_on_every_exit.2.1
    ⟨fun _ => true, fun _ => 0, fun _ => 0, fun _ => (0, 0), fun _ => 0⟩
    4 4 0 0 0 (1, 1) (2, 2) rfl

/-! ### Claim C10 -/

/-- C10: at a corner (exactly one of left/right set and exactly one of
top/bottom set) the output of `pick_diagonal_velocity` is fully
determined by the speed and the flags — the wall-forced signs times
`comp` — so two runs with different previous velocities and different
random streams return the same vector, whether produced by the search or
by the fallback. -/
theorem c10_corner_deterministic (speed_mag : ℚ) (hl hr ht hb : Bool)
    (pvx pvy pvx2 pvy2 : ℚ) (rng rng2 : ℕ → Bool)
    (hx_ : hl ≠ hr) (hy_ : ht ≠ hb) :
    pick_diagonal_velocity speed_mag hl hr ht hb pvx pvy rng
        = ((if hl then (1 : ℝ) else -1) * comp speed_mag,
           (if ht then (1 : ℝ) else -1) * comp speed_mag) ∧
    pick_diagonal_velocity speed_mag hl hr ht hb pvx pvy rng
        = pick_diagonal_velocity speed_mag hl hr ht hb pvx2 pvy2 rng2 := by
  have key : ∀ (pvx' pvy' : ℚ) (rng' : ℕ → Bool),
      pick_diagonal_velocity speed_mag hl hr ht hb pvx' pvy' rng'
        = ((if hl then (1 : ℝ) else -1) * comp speed_mag,
           (if ht then (1 : ℝ) else -1) * comp speed_mag) := by
    intro pvx' pvy' rng'
    unfold pick_diagonal_velocity
    rw [pickSigns_corner hx_ hy_ pvx' pvy' rng']
    dsimp only
    rw [Prod.mk.injEq]
    constructor <;> cases hl <;> cases ht <;> norm_num
  exact ⟨key pvx pvy rng, (key pvx pvy rng).trans (key pvx2 pvy2 rng2).symm⟩

/-- Witness for C10 at a left+bottom corner. -/
theorem c10_witness :
    pick_diagonal_velocity 200 true false false true 5 6 (fun _ => false)
        = ((if true then (1 : ℝ) else -1) * comp 200,
           (if false then (1 : ℝ) else -1) * comp 200) ∧
    pick_diagonal_velocity 200 true false false true 5 6 (fun _ => false)
        = pick_diagonal_velocity 200 true false false true 7 8 (fun _ => true) :=
  c10_corner_deterministic 200 true false false true 5 6 7 8
    (fun _ => false) (fun _ => true) (by decide) (by decide)

end MouseWalk
